import Mathlib

/-!
Verification of the Knowshow price-monitoring bot against its design
specification.  The Python sources (`src/parser/scraper.py`,
`src/handlers/admin.py`, `src/parser/cookies_manager.py`,
`src/database/manager.py`, `src/main.py`) are shallowly embedded below:
pure text-processing helpers become Lean functions on `List Char` /
`String`, the stateful pieces (notification ledger, cookie store,
global-product table) become explicit state-passing functions, and the
retrieval engine's control flow becomes a function over a trace of HTTP
outcomes.  Machine floats are modelled as exact rationals.
-/

namespace WB

/-! ### Basic Python-style string helpers -/

/-- Python `\s` test (ASCII fragment, which is all the embedded code meets). -/
def isWs (c : Char) : Bool := c.isWhitespace

/-- Python `\w` test for the word-boundary `\b` semantics of `re`
(ASCII fragment: letters, digits, underscore). -/
def isWordChar (c : Char) : Bool := c.isAlphanum || c == '_'

/-- Word test lifted to an optional character (none = beyond the text). -/
def isWordO : Option Char → Bool
  | none => false
  | some c => isWordChar c

/-- Python `str.lower()` on the character lists we meet (ASCII letters). -/
def lowerL (cs : List Char) : List Char := cs.map Char.toLower

/-- Python `str.upper()`. -/
def upperL (cs : List Char) : List Char := cs.map Char.toUpper

/-- Python `str.strip()`: drop whitespace from both ends. -/
def stripL (cs : List Char) : List Char :=
  ((cs.dropWhile isWs).reverse.dropWhile isWs).reverse

/-- Model of `re.sub(r'\s+', ' ', ·)`: collapse every whitespace run to one blank. -/
def collapseWs : List Char → List Char
  | [] => []
  | [c] => if isWs c then [' '] else [c]
  | a :: b :: rest =>
      if isWs a && isWs b then collapseWs (b :: rest)
      else (if isWs a then ' ' else a) :: collapseWs (b :: rest)

/-- Case-insensitive "`needle` starts `hay`" on character lists. -/
def startsCI : List Char → List Char → Bool
  | [], _ => true
  | _ :: _, [] => false
  | a :: as_, b :: bs => (a.toLower == b.toLower) && startsCI as_ bs

/-- Case-sensitive "`needle` starts `hay`". -/
def startsCS : List Char → List Char → Bool
  | [], _ => true
  | _ :: _, [] => false
  | a :: as_, b :: bs => (a == b) && startsCS as_ bs

/-- Python `needle in hay` (substring test) on character lists. -/
def subsL (needle : List Char) : List Char → Bool
  | [] => needle.isEmpty
  | c :: rest => startsCS needle (c :: rest) || subsL needle rest

/-- Python `needle in hay` on strings. -/
def strContains (hay needle : String) : Bool := subsL needle.data hay.data

def pyLower (s : String) : String := ⟨lowerL s.data⟩

def pyUpper (s : String) : String := ⟨upperL s.data⟩

def pyStrip (s : String) : String := ⟨stripL s.data⟩

/-- Python truthiness of a string. -/
def strTruthy (s : String) : Bool := !s.data.isEmpty

/-- Python `str.title()`: an alphabetic character is uppercased after a
non-cased character and lowercased after a cased one. -/
def titleGo : Bool → List Char → List Char
  | _, [] => []
  | prevCased, c :: rest =>
      if c.isAlpha then
        (if prevCased then c.toLower else c.toUpper) :: titleGo true rest
      else c :: titleGo false rest

def pyTitle (s : String) : String := ⟨titleGo false s.data⟩

/-- Python no-argument `str.split()`: split on whitespace runs, no empties. -/
def splitWsGo : List Char → List Char → List (List Char)
  | acc, [] => if acc.isEmpty then [] else [acc.reverse]
  | acc, c :: rest =>
      if isWs c then
        if acc.isEmpty then splitWsGo [] rest else acc.reverse :: splitWsGo [] rest
      else splitWsGo (c :: acc) rest

def splitWsStr (s : String) : List String := (splitWsGo [] s.data).map String.mk

/-- Python `sep.split(ch)` for a one-character separator (keeps empties). -/
def splitOnCharL (sep : Char) : List Char → List (List Char)
  | [] => [[]]
  | c :: rest =>
      if c == sep then [] :: splitOnCharL sep rest
      else
        match splitOnCharL sep rest with
        | t :: ts => (c :: t) :: ts
        | [] => [[c]]

/-- Model of `' '.join(tokens)` over strings. -/
def joinSpace : List String → String
  | [] => ""
  | [s] => s
  | s :: rest => s ++ " " ++ joinSpace rest

/-- Leading digits of a character list parsed as a natural number. -/
def natOfDigits (cs : List Char) : Nat :=
  cs.foldl (fun n c => n * 10 + (c.toNat - ('0').toNat)) 0

/-! ### Marketplace search hits

A raw search hit is the loosely-typed JSON document the marketplace
returns (`RawResult` in the spec).  Nested dictionaries keep their
insertion order, as Python dicts do. -/

inductive JVal where
  | null
  | str (s : String)
  | num (n : Int)
  | arr (xs : List JVal)
  | obj (fields : List (String × JVal))

/-- Python truthiness of a decoded JSON value. -/
def jTruthy : JVal → Bool
  | .null => false
  | .str s => !s.data.isEmpty
  | .num n => n != 0
  | .arr xs => !xs.isEmpty
  | .obj fs => !fs.isEmpty

/-- Python `dict.get(k)` (first binding wins, as duplicate keys cannot
occur in a Python dict). -/
def jget : JVal → String → Option JVal
  | .obj fs, k => (fs.find? (fun f => f.1 == k)).map (·.2)
  | _, _ => none

/-- Python `a or b` where `a` came from `dict.get` (absent key = `None`). -/
def pyOrJ : Option JVal → JVal → JVal
  | some v, b => if jTruthy v then v else b
  | none, b => b

/-- Python `a or b` where both operands came from `dict.get`. -/
def pyOrO : Option JVal → Option JVal → Option JVal
  | some v, b => if jTruthy v then some v else b
  | none, b => b

/-! ### `WildberriesScraper._filter_by_keywords` (src/parser/scraper.py) -/

/- The `collect` closure of `_product_text`: gather every textual field
of a raw result, recursing into dicts and lists while `depth <= 3`;
non-string scalars are stringified. -/
mutual

def collectParts (depth : Nat) : JVal → List String
  | .null => []
  | .str s => if depth > 3 then [] else [s]
  | .num n => if depth > 3 then [] else [toString n]
  | .arr xs => if depth > 3 then [] else collectPartsArr (depth + 1) xs
  | .obj fs => if depth > 3 then [] else collectPartsObj (depth + 1) fs

def collectPartsArr (depth : Nat) : List JVal → List String
  | [] => []
  | x :: xs => collectParts depth x ++ collectPartsArr depth xs

def collectPartsObj (depth : Nat) : List (String × JVal) → List String
  | [] => []
  | f :: fs => collectParts depth f.2 ++ collectPartsObj depth fs

end

/-- Model of `_product_text`: the lowercased blank-joined aggregation of all
textual fields of a raw result. -/
def productText (p : JVal) : String := pyLower (joinSpace (collectParts 0 p))

/-- The inner keyword loop of `_filter_by_keywords`: blank keywords are
skipped; the first keyword found in the aggregated text keeps the
product (`break`). -/
def keywordLoop (text : String) : List String → Bool
  | [] => false
  | kw :: rest =>
      let k := pyLower (pyStrip kw)
      if k.data.isEmpty then keywordLoop text rest
      else if strContains text k then true
      else keywordLoop text rest

/-- Model of `_filter_by_keywords`: with no keywords every product is kept,
otherwise a product is kept when the keyword loop accepts it. -/
def filterByKeywords (products : List JVal) (keywords : List String) : List JVal :=
  if keywords.isEmpty then products
  else products.filter (fun p => keywordLoop (productText p) keywords)

/-! ### `WildberriesScraper._filter_by_exclusions` (src/parser/scraper.py) -/

/-- Characters kept by `_normalize_keep_connectors`: digits, latin and
cyrillic lowercase letters, plus sign, hyphen, slash; every run of other
characters is replaced by a blank. -/
def keepConn (c : Char) : Bool :=
  c.isDigit || ('a' ≤ c && c ≤ 'z') || ('а' ≤ c && c ≤ 'я') || c == 'ё' ||
    c == '+' || c == '-' || c == '/'

/-- Model of `_normalize_keep_connectors`: lowercase, turn every run of characters
outside the kept class into a blank, collapse whitespace, strip. -/
def normalizeKeepConnectors (s : String) : String :=
  ⟨stripL (collapseWs ((lowerL s.data).map (fun c => if keepConn c then c else ' ')))⟩

/-- Model of `_compact`: lowercase and drop everything but letters and digits. -/
def compactStr (s : String) : String :=
  ⟨(lowerL s.data).filter (fun c =>
    c.isDigit || ('a' ≤ c && c ≤ 'z') || ('а' ≤ c && c ≤ 'я') || c == 'ё')⟩

/-- Model of `should_skip_esim_case`: an embedded-SIM mention co-occurring with a
physical-SIM marker suppresses exclusion matching, unless the text is one
of the confirmed embedded-only phrasings. -/
def shouldSkipEsimCase (text : String) : Bool :=
  let t := pyLower text
  if !strContains t "esim" then false
  else if ["esim only", "only esim", "e-sim only", "esim+esim", "dual esim"].any
      (fun bad => strContains t bad) then false
  else
    [" sim", " nano-sim", " nanosim", " nano sim", " physical sim", " 2 sim",
      " dual sim", "sim +", "+ sim"].any (fun ph => strContains t ph)

/-- The provenance labels `_collect_selected_fields` attaches to each
extracted textual fragment (the Python code renders them as path
strings; only the shape matters to the filter). -/
inductive FieldPath where
  | metadataName
  | charName (i : Nat)
  | charValue (i j : Nat)
  | productName
  | supplier
  | colorName (i : Nat)

/-- The path filter `re.match(r"meta\.characteristics\[\d+\]\.values\[0\]", path)`:
it recognises exactly the first value of any characteristics entry. -/
def isCharValueZero : FieldPath → Bool
  | .charValue _ 0 => true
  | _ => false

/-- A fragment is worth keeping when it is a string with non-blank content. -/
def fragOfStr (path : FieldPath) : Option JVal → List (FieldPath × String)
  | some (.str s) => if (stripL s.data).isEmpty then [] else [(path, s)]
  | _ => []

/-- Model of `_collect_selected_fields`: the fixed set of textual fields that the
exclusion filter examines. -/
def collectSelectedFields (product : JVal) : List (FieldPath × String) :=
  match product with
  | .obj _ =>
      let metaRoot := pyOrJ (jget product "metadata") (pyOrJ (jget product "meta") (.obj []))
      let metaItems :=
        match metaRoot with
        | .obj _ =>
            fragOfStr .metadataName (jget metaRoot "name") ++
              (match pyOrJ (jget metaRoot "characteristics")
                  (pyOrJ (jget metaRoot "characteristicsList") (.arr [])) with
                | .arr chs =>
                    chs.enum.flatMap (fun ch =>
                      match ch.2 with
                      | .obj _ =>
                          fragOfStr (.charName ch.1) (jget ch.2 "name") ++
                            (match pyOrJ (jget ch.2 "values")
                                (pyOrJ (jget ch.2 "value") (pyOrJ (jget ch.2 "items") (.arr []))) with
                              | .arr vals =>
                                  vals.enum.flatMap (fun v =>
                                    match v.2 with
                                    | .obj _ =>
                                        fragOfStr (.charValue ch.1 v.1)
                                          (pyOrO (jget v.2 "name")
                                            (pyOrO (jget v.2 "value") (jget v.2 "title")))
                                    | .str s => [((.charValue ch.1 v.1 : FieldPath), s)]
                                    | _ => [])
                              | _ => [])
                      | _ => [])
                | _ => [])
        | _ => []
      metaItems ++
        fragOfStr .productName (jget product "name") ++
        fragOfStr .supplier
          (pyOrO (jget product "supplier")
            (pyOrO (jget product "supplierName") (jget product "brand"))) ++
        (match pyOrJ (jget product "colors") (.arr []) with
          | .arr cols =>
              cols.enum.flatMap (fun c =>
                match c.2 with
                | .obj _ => fragOfStr (.colorName c.1) (pyOrO (jget c.2 "name") (jget c.2 "title"))
                | _ => [])
          | _ => [])
  | _ => []

/-- Contiguous multi-token containment used by match mode 3. -/
def hasContiguous (xs : List String) : List String → Bool
  | [] => false
  | y :: ys => (xs == (y :: ys).take xs.length) || hasContiguous xs ys

/-- The per-fragment matching of one exclusion term: the boilerplate
first characteristics value is never examined; an embedded-SIM exclusion
is suppressed on dual-connectivity text; otherwise the term matches as a
single normalized token, by compact equality, or as a contiguous
multi-token run. -/
def fragMatchesExclusion (exTokens : List String) (exCompact exNorm : String)
    (path : FieldPath) (txt : String) : Bool :=
  let tokens := splitWsStr (normalizeKeepConnectors txt)
  let compactTokens := tokens.map compactStr
  let fulltext := joinSpace tokens
  if isCharValueZero path then false
  else if strContains exNorm "esim" && shouldSkipEsimCase fulltext then false
  else if exTokens.length == 1 && tokens.contains (exTokens.headD "") then true
  else if !exCompact.data.isEmpty && compactTokens.contains exCompact then true
  else if 1 < exTokens.length && hasContiguous exTokens tokens then true
  else false

/-- The per-product body of `_filter_by_exclusions`: some exclusion term
(blank ones skipped) matches some collected fragment. -/
def productExcluded (product : JVal) (exclusions : List String) : Bool :=
  let frags := collectSelectedFields product
  exclusions.any (fun ex =>
    let exLower := pyLower (pyStrip ex)
    if exLower.data.isEmpty then false
    else
      let exNorm := normalizeKeepConnectors exLower
      let exTokens := splitWsStr exNorm
      let exCompact := compactStr exNorm
      frags.any (fun f => fragMatchesExclusion exTokens exCompact exNorm f.1 f.2))

/-- Model of `_filter_by_exclusions`: drop every product on which some exclusion
term matches. -/
def filterByExclusions (products : List JVal) (exclusions : List String) : List JVal :=
  if exclusions.isEmpty then products
  else products.filter (fun p => !productExcluded p exclusions)

/-! ### `WildberriesScraper.search_product` / `_search_by_query`
(src/parser/scraper.py)

Each HTTP attempt of `_search_by_query` is summarised by one outcome in
a trace; the recursive retry structure of the Python code consumes the
trace one attempt at a time. -/

/-- How one HTTP attempt of the search request can end. -/
inductive HttpOutcome where
  /-- 200 with a JSON body; the decoded `products` array. -/
  | ok200 (products : List JVal)
  /-- 200 with an empty body. -/
  | emptyBody
  /-- 200 with a non-JSON body that looks like an HTML blocked page. -/
  | badJsonHtml
  /-- 200 with a non-JSON body of any other shape. -/
  | badJsonOther
  /-- the custom session-invalid status 498. -/
  | s498
  /-- rate limited, status 429. -/
  | s429
  /-- any other non-200 status. -/
  | other (code : Nat)
  /-- the request timed out. -/
  | timeout
  /-- some other exception was raised while handling the attempt. -/
  | exn

/-- Result of running the engine against a trace: a returned value, a
propagated exception, or a trace too short to decide (the code would
keep issuing requests). -/
inductive RunResult where
  | ok (products : List JVal)
  | raised
  | noTrace

/-- Model of `_search_by_query` over an outcome trace.  Every branch mirrors the
Python control flow: 200/JSON returns the products; empty or non-JSON
bodies return `[]` except the HTML blocked page, which refreshes the
session and retries (a fresh call, attempt counter reset); 498 refreshes
and retries once inline, interpreting only a 200 response; 429 sleeps
and retries the same query; other statuses return `[]`; a timeout
retries while `attempts < 2` and then returns `[]`; any other exception
is caught by the trailing handler and returns `[]`. -/
def searchByQuery : List HttpOutcome → Nat → RunResult
  | [], _ => .noTrace
  | .ok200 ps :: _, _ => .ok ps
  | .emptyBody :: _, _ => .ok []
  | .badJsonHtml :: rest, _ => searchByQuery rest 0
  | .badJsonOther :: _, _ => .ok []
  | .s429 :: rest, _ => searchByQuery rest 0
  | .other _ :: _, _ => .ok []
  | .exn :: _, _ => .ok []
  | .timeout :: rest, attempts =>
      if attempts < 2 then searchByQuery rest (attempts + 1) else .ok []
  | [.s498], _ => .noTrace
  | .s498 :: retry :: rest, attempts =>
      match retry with
      | .ok200 ps => .ok ps
      | .timeout => if attempts < 2 then searchByQuery rest (attempts + 1) else .ok []
      | _ => .ok []

/-- Model of `search_product`: run the query, return `[]` when nothing was found,
otherwise apply the keyword filter then the exclusion filter; the
enclosing `try` turns any escaped exception into `[]`. -/
def searchProduct (trace : List HttpOutcome) (keywords exclusions : List String) :
    RunResult :=
  match searchByQuery trace 0 with
  | .ok ps =>
      if ps.isEmpty then .ok []
      else .ok (filterByExclusions (filterByKeywords ps keywords) exclusions)
  | .raised => .ok []
  | .noTrace => .noTrace

/-! ### `_extract_components` (src/handlers/admin.py)

The extraction grammar works by repeated regular-expression search and
removal.  The helpers below reproduce the exact matching semantics of
the patterns involved (`re` scans positions left to right; `\d+`, `\s+`
and `\s*` are effectively possessive here because no alternative can
start with the character that made them stop). -/

/-- Try pattern `\s*lit1\s*lit2...\s*` at the start of the text
(case-insensitive literals): on success return the remainder after the
matched span. -/
def trySeqAt (lits : List (List Char)) (cs : List Char) : Option (List Char) :=
  match lits with
  | [] => some (cs.dropWhile isWs)
  | l :: ls =>
      let cs1 := cs.dropWhile isWs
      if startsCI l cs1 then trySeqAt ls (cs1.drop l.length) else none

/-- Model of `re.sub` of the spaced-literal pattern by a single blank, scanning
left to right over non-overlapping matches.  Fuel is the text length:
every match consumes at least one character because the literals are
non-empty. -/
def subSeqGo (lits : List (List Char)) : Nat → List Char → List Char
  | 0, cs => cs
  | _ + 1, [] => []
  | fuel + 1, c :: rest =>
      match trySeqAt lits (c :: rest) with
      | some rem => ' ' :: subSeqGo lits fuel rem
      | none => c :: subSeqGo lits fuel rest

def subSeq (lits : List (List Char)) (cs : List Char) : List Char :=
  subSeqGo lits cs.length cs

/-- Model of `re.sub(r'\b' + re.escape(x) + r'\b', repl, ·, re.IGNORECASE)`:
replace whole-word occurrences, tracking the character before the
current position for the boundary test. -/
def subBoundedGo (x repl : List Char) : Nat → Option Char → List Char → List Char
  | 0, _, cs => cs
  | _ + 1, _, [] => []
  | fuel + 1, prev, c :: rest =>
      if startsCI x (c :: rest) && (isWordO prev != isWordO x.head?) &&
          (isWordO x.getLast? != isWordO ((c :: rest).drop x.length).head?) then
        repl ++ subBoundedGo x repl fuel ((c :: rest).take x.length).getLast?
          ((c :: rest).drop x.length)
      else c :: subBoundedGo x repl fuel (some c) rest

def subBounded (x repl cs : List Char) : List Char :=
  subBoundedGo x repl cs.length none cs

/-- One position of `re.search(r'(\d+(?:tb|gb))\b', ·, re.IGNORECASE)`:
a maximal digit run, immediately a capacity unit, then a word boundary.
(Backtracking inside `\d+` can never succeed because the units do not
start with a digit.) -/
def storageAt (cs : List Char) : Option (List Char) :=
  let ds := cs.takeWhile Char.isDigit
  if ds.isEmpty then none
  else
    let r := cs.drop ds.length
    if startsCI ['t', 'b'] r || startsCI ['g', 'b'] r then
      if isWordO (r.drop 2).head? then none else some (ds ++ r.take 2)
    else none

/-- Leftmost storage match. -/
def findStorage : List Char → Option (List Char)
  | [] => none
  | c :: rest =>
      match storageAt (c :: rest) with
      | some m => some m
      | none => findStorage rest

/-- The tier alternation `(?:pro\s+max|pro|air|plus)` together with the
closing `\b` of the model pattern, tried in the regex's order with its
backtracking behaviour: `pro max` failing the boundary falls back to
`pro`. -/
def tierAt (cs : List Char) : Option (List Char) :=
  if startsCI ['p', 'r', 'o'] cs then
    let r3 := cs.drop 3
    let w2 := r3.takeWhile isWs
    let r4 := r3.drop w2.length
    if !w2.isEmpty && startsCI ['m', 'a', 'x'] r4 && !isWordO (r4.drop 3).head? then
      some (cs.take 3 ++ w2 ++ r4.take 3)
    else if !isWordO r3.head? then some (cs.take 3)
    else none
  else if startsCI ['a', 'i', 'r'] cs && !isWordO (cs.drop 3).head? then some (cs.take 3)
  else if startsCI ['p', 'l', 'u', 's'] cs && !isWordO (cs.drop 4).head? then some (cs.take 4)
  else none

/-- One position of `re.search(r'\b(\d+\s+(?:pro\s+max|pro|air|plus)?)\b', ·)`:
an opening boundary, digits, mandatory whitespace, then the optional
tier; with no tier the closing boundary needs a word character next. -/
def modelAt (prev : Option Char) (cs : List Char) : Option (List Char) :=
  if isWordO prev then none
  else
    let ds := cs.takeWhile Char.isDigit
    if ds.isEmpty then none
    else
      let r1 := cs.drop ds.length
      let w := r1.takeWhile isWs
      if w.isEmpty then none
      else
        let r2 := r1.drop w.length
        match tierAt r2 with
        | some t => some (ds ++ w ++ t)
        | none => if isWordO r2.head? then some (ds ++ w) else none

/-- Leftmost model match. -/
def findModel (prev : Option Char) : List Char → Option (List Char)
  | [] => none
  | c :: rest =>
      match modelAt prev (c :: rest) with
      | some m => some m
      | none => findModel (some c) rest

/-- Model of `CanonicalComponents`: the structured attributes extracted from a
free-text product title (`sim_type` is always set, the domain default
being the dual-connectivity variant). -/
structure Components where
  model : Option String
  storage : Option String
  color : Option String
  simType : String
deriving Repr, DecidableEq

/-- Model of `_extract_components`: lowercase and strip, drop the brand word,
classify and remove the connectivity marker, then the storage token,
then the model, leaving the color; finally remap White to Silver on the
two flagship tiers. -/
def extractComponents (productName : String) : Components :=
  let text0 := stripL (lowerL productName.data)
  let text1 := stripL (subBounded ['i', 'p', 'h', 'o', 'n', 'e'] [] text0)
  let simEsim := subsL ['s', 'i', 'm', '+', 'e', 's', 'i', 'm'] text1 ||
    subsL ['s', 'i', 'm', ' ', '+', ' ', 'e', 's', 'i', 'm'] text1
  let simType := if simEsim then "nano-SIM+Esim"
    else if subsL ['e', 's', 'i', 'm'] text1 then "Esim"
    else "nano-SIM+Esim"
  let text2 :=
    if simEsim then
      stripL (subSeq [['s', 'i', 'm'], ['+'], ['e', 's', 'i', 'm']] text1)
    else if subsL ['e', 's', 'i', 'm'] text1 then
      stripL (subSeq [['e', 's', 'i', 'm']] text1)
    else text1
  let text3 := stripL (collapseWs text2)
  let storageM := findStorage text3
  let storage := storageM.map (fun m => (⟨upperL m⟩ : String))
  let text4 :=
    match storageM with
    | some m => stripL (subSeq [m] text3)
    | none => text3
  let text5 := stripL (collapseWs text4)
  let modelM := findModel none text5
  let model := modelM.map (fun m => pyTitle ⟨m⟩)
  let text6 :=
    match modelM with
    | some m => stripL (subBounded m [' '] text5)
    | none => text5
  let text7 := stripL (collapseWs text6)
  let color0 := if text7.isEmpty then none else some (pyTitle ⟨text7⟩)
  let color :=
    match color0, model with
    | some c, some m =>
        if pyLower c == "white" && (pyLower m == "17 pro" || pyLower m == "17 pro max") then
          some "Silver"
        else some c
    | _, _ => color0
  ⟨model, storage, color, simType⟩

/-! ### `_parse_price_entries`, `_normalize_sim_type`,
`_components_match`, `_find_matching_product` (src/handlers/admin.py) -/

/-- Python `str.replace` (case-sensitive, leftmost non-overlapping),
with fuel as in the other scanners. -/
def replaceCSGo (x repl : List Char) : Nat → List Char → List Char
  | 0, cs => cs
  | _ + 1, [] => []
  | fuel + 1, c :: rest =>
      if startsCS x (c :: rest) then repl ++ replaceCSGo x repl fuel ((c :: rest).drop x.length)
      else c :: replaceCSGo x repl fuel rest

def pyReplace (s x repl : String) : String :=
  if x.data.isEmpty then s else ⟨replaceCSGo x.data repl.data s.data.length s.data⟩

/-- Model of `re.sub` of a case-insensitive literal. -/
def replaceCIGo (x repl : List Char) : Nat → List Char → List Char
  | 0, cs => cs
  | _ + 1, [] => []
  | fuel + 1, c :: rest =>
      if startsCI x (c :: rest) then repl ++ replaceCIGo x repl fuel ((c :: rest).drop x.length)
      else c :: replaceCIGo x repl fuel rest

def replaceCI (s x repl : String) : String :=
  ⟨replaceCIGo x.data repl.data s.data.length s.data⟩

/-- Model of `_normalize_sim_type`: rewrite the two dual-connectivity spellings to
the canonical `nano-SIM+Esim` and canonicalise the capitalisation of the
embedded-SIM word. -/
def normalizeSimType (text : String) : String :=
  let textLower := pyLower text
  let t1 :=
    if strContains textLower "sim+esim" || strContains textLower "sim + esim" then
      pyReplace (pyReplace (pyReplace (pyReplace text "Sim+eSim" "nano-SIM+Esim")
        "sim+esim" "nano-SIM+Esim") "Sim + eSim" "nano-SIM+Esim") "sim + esim" "nano-SIM+Esim"
    else text
  pyStrip (replaceCI t1 "esim" "Esim")

/-- A parsed admin price-update line. -/
structure PriceEntry where
  original : String
  productText : String
  simType : String
  price : Nat
deriving Repr, DecidableEq

/-- Regional-indicator test for the country-flag removal
`re.sub(r'[\U0001F1E6-\U0001F1FF]+\s*', '', ·)`. -/
def isFlagChar (c : Char) : Bool := 0x1F1E6 ≤ c.toNat && c.toNat ≤ 0x1F1FF

def removeFlagsGo : Nat → List Char → List Char
  | 0, cs => cs
  | _ + 1, [] => []
  | fuel + 1, c :: rest =>
      if isFlagChar c then
        removeFlagsGo fuel (((c :: rest).dropWhile isFlagChar).dropWhile isWs)
      else c :: removeFlagsGo fuel rest

def removeFlags (cs : List Char) : List Char := removeFlagsGo cs.length cs

/-- Model of `re.search(r'(\d+)\s*₽?', ·)`: the leftmost maximal digit run. -/
def findPriceDigits : List Char → Option (List Char)
  | [] => none
  | c :: rest =>
      if c.isDigit then some ((c :: rest).takeWhile Char.isDigit)
      else findPriceDigits rest

/-- One line of `_parse_price_entries`: split on the em-dash, strip the
country flags, read the price, normalise the connectivity phrase and
force `Esim` for Air models. -/
def parsePriceLine (line0 : String) : Option PriceEntry :=
  let line := pyStrip line0
  if line.data.isEmpty || !strContains line "—" then none
  else
    match (splitOnCharL '—' line.data).map String.mk with
    | [a, b] =>
        let productPart0 := pyStrip a
        let pricePart := pyStrip b
        let productPart := pyStrip ⟨removeFlags productPart0.data⟩
        match findPriceDigits pricePart.data with
        | none => none
        | some ds =>
            let price := natOfDigits ds
            let simType0 := normalizeSimType productPart
            let simType :=
              match (extractComponents productPart).model with
              | some m => if strTruthy m && strContains (pyLower m) "air" then "Esim" else simType0
              | none => simType0
            some ⟨line, productPart, simType, price⟩
    | _ => none

/-- Model of `_parse_price_entries`: strip the message, split it into lines, keep
the lines that parse. -/
def parsePriceEntries (text : String) : List PriceEntry :=
  ((splitOnCharL '\n' (pyStrip text).data).map String.mk).filterMap parsePriceLine

/-- Model of `handle_price_update`'s price computation: subtract the fixed 8.5 %
from the announced price (exact-rational model of the float arithmetic,
which is exact at every concrete input considered here). -/
def finalPrice (price : Nat) : Int := round ((price : ℚ) * (1 - 85 / 1000))

/-- The per-component comparison inside `_components_match`, including
the Python truthiness of the two values. -/
def checkComp (a b : Option String) : Bool :=
  let ta := match a with | some s => strTruthy s | none => false
  let tb := match b with | some s => strTruthy s | none => false
  if (!ta || !tb) ∧ a ≠ b then false
  else if ta ∧ tb ∧ a.map pyLower ≠ b.map pyLower then false
  else true

/-- Model of `_components_match`: all four attributes must agree. -/
def componentsMatch (e p : Components) : Bool :=
  checkComp e.model p.model && checkComp e.storage p.storage &&
    checkComp e.color p.color && checkComp (some e.simType) (some p.simType)

/-- A configured `GlobalProduct` row (thresholds as exact rationals). -/
structure GlobalProduct where
  name : String
  thresholdMin : ℚ
  thresholdMax : ℚ
  keywords : String
  exclusions : String
deriving DecidableEq

/-- Model of `_find_matching_product`: extract components from the line's product
text, then return the first candidate whose stored name extracts to
matching components. -/
def findMatchingProduct (entryText : String) (products : List GlobalProduct) :
    Option GlobalProduct :=
  let ec := extractComponents entryText
  products.find? (fun p => componentsMatch ec (extractComponents p.name))

/-! ### Notification Ledger (src/database/manager.py) and the
notification decision of `parser_monitoring_loop` (src/main.py) -/

/-- A `ChannelNotification` row: the last notified price per URL
(`last_price` is nullable in the schema; the loop's own upserts always
store a number). -/
structure LedgerEntry where
  url : String
  lastPrice : Option ℚ
deriving DecidableEq

/-- Model of `get_sent_notification`: the row with this URL, if any. -/
def lookupLedger (led : List LedgerEntry) (u : String) : Option LedgerEntry :=
  led.find? (fun e => e.url == u)

/-- Model of `upsert_sent_notification`: update the row with this URL in place,
or create it. -/
def upsertNotification (led : List LedgerEntry) (u : String) (p : ℚ) : List LedgerEntry :=
  match led with
  | [] => [⟨u, some p⟩]
  | e :: rest =>
      if e.url == u then ⟨e.url, some p⟩ :: rest
      else e :: upsertNotification rest u p

/-- The notification decision of the monitoring loop: notify on first
sighting, on an unknown previous price, or on a strict price decrease. -/
def notifyDecision (led : List LedgerEntry) (u : String) (p : ℚ) : Bool :=
  match lookupLedger led u with
  | none => true
  | some e =>
      match e.lastPrice with
      | none => true
      | some prev => decide (p < prev)

/-- Dispatch-then-upsert: the Bool records whether a notification was
sent for this (url, discounted price) evaluation. -/
def notifyStep (led : List LedgerEntry) (u : String) (p : ℚ) :
    List LedgerEntry × Bool :=
  if notifyDecision led u p then (upsertNotification led u p, true) else (led, false)

/-- The prices dispatched for a fixed URL over a run of evaluations. -/
def runDispatches (led : List LedgerEntry) : List (String × ℚ) → String → List ℚ
  | [], _ => []
  | (u, p) :: evs, target =>
      let s := notifyStep led u p
      if s.2 && u == target then p :: runDispatches s.1 evs target
      else runDispatches s.1 evs target

/-- The model-match guard of `parser_monitoring_loop`: when the tracked
product's stored name extracts to a model, that model must occur
case-insensitively in the found product's raw title or in the model
extracted from that title. -/
def modelGuard (prodName resTitle : String) : Bool :=
  match (extractComponents prodName).model with
  | none => true
  | some gm =>
      if !strTruthy gm then true
      else
        strContains (pyLower resTitle) (pyLower gm) ||
          (match (extractComponents resTitle).model with
            | none => false
            | some fm => strTruthy fm && strContains (pyLower fm) (pyLower gm))

/-- One (result, band) evaluation of the monitoring loop: the model
guard, then the threshold band, then the notification decision. -/
def processPair (led : List LedgerEntry) (prodName : String) (thrMin thrMax : ℚ)
    (resTitle url : String) (price : ℚ) : List LedgerEntry × Bool :=
  if !modelGuard prodName resTitle then (led, false)
  else if thrMin ≤ price ∧ price ≤ thrMax then notifyStep led url price
  else (led, false)

/-! ### `CookiesManager` (src/parser/cookies_manager.py) -/

/-- The mutable state of the Credential Store: the cached cookie set,
the acquisition timestamp, and the single-flight flag. -/
structure CMState where
  cookies : Option (List (String × String))
  lastUpdate : ℚ
  updating : Bool
deriving DecidableEq

/-- Model of `update_interval`: thirty minutes. -/
def updateInterval : ℚ := 1800

/-- Model of `should_update_cookies`: the cached session is older than the TTL. -/
def shouldUpdateCookies (st : CMState) (now : ℚ) : Bool :=
  decide (now - st.lastUpdate > updateInterval)

/-- Python truthiness of the cookie cache (`if self.cookies`). -/
def cookiesTruthy : Option (List (String × String)) → Bool
  | none => false
  | some cs => !cs.isEmpty

/-- What the two acquisition strategies would return if invoked:
`_selenium_fetch_cookies` (none models both failure and an exception)
and the requests fallback (empty on failure). -/
structure AcqEnv where
  selenium : Option (List (String × String))
  fallback : List (String × String)

/-- Model of `update_cookies`: skip when an update is in flight; skip when the
cache is fresh, non-empty and no force was requested; otherwise run the
primary strategy and, if it yields fewer than two cookies, the fallback.
The second component counts the acquisition strategies invoked. -/
def updateCookies (st : CMState) (env : AcqEnv) (now : ℚ) (force : Bool) :
    CMState × Nat :=
  if st.updating then (st, 0)
  else if cookiesTruthy st.cookies && !shouldUpdateCookies st now && !force then (st, 0)
  else
    match env.selenium with
    | some cs =>
        if 2 ≤ cs.length then (⟨some cs, now, false⟩, 1)
        else if !env.fallback.isEmpty then (⟨some env.fallback, now, false⟩, 2)
        else (⟨st.cookies, st.lastUpdate, false⟩, 2)
    | none =>
        if !env.fallback.isEmpty then (⟨some env.fallback, now, false⟩, 2)
        else (⟨st.cookies, st.lastUpdate, false⟩, 2)

/-! ### `DatabaseManager.add_global_product` (src/database/manager.py) -/

/-- The arguments of one `add_global_product` call. -/
structure AddCall where
  name : String
  thresholdMin : ℚ
  thresholdMax : Option ℚ
  keywords : String
  exclusions : String

/-- Model of `add_global_product`: overwrite the first row carrying this exact
name, or append a fresh row; a missing ceiling defaults to the floor. -/
def addGlobalProduct (rows : List GlobalProduct) (c : AddCall) : List GlobalProduct :=
  match rows with
  | [] => [⟨c.name, c.thresholdMin, c.thresholdMax.getD c.thresholdMin, c.keywords, c.exclusions⟩]
  | r :: rest =>
      if r.name == c.name then
        ⟨r.name, c.thresholdMin, c.thresholdMax.getD c.thresholdMin, c.keywords, c.exclusions⟩ :: rest
      else r :: addGlobalProduct rest c

/-- A sequence of `add_global_product` calls against a table. -/
def applyAddCalls (rows : List GlobalProduct) (calls : List AddCall) : List GlobalProduct :=
  calls.foldl addGlobalProduct rows

/-! ### Specification-side predicates

These definitions follow the spec's wording and are compared with the
code-side functions above. -/

/-- Spec wording for the price-update matcher: two unspecified values
are equal to each other, two specified values compare case-insensitively,
and an unspecified value never equals a specified one. -/
def specAttrEq (a b : Option String) : Bool :=
  match a, b with
  | none, none => true
  | some x, some y => pyLower x == pyLower y
  | _, _ => false

/-- Spec wording: all four attributes agree. -/
def specAllFourMatch (e p : Components) : Bool :=
  specAttrEq e.model p.model && specAttrEq e.storage p.storage &&
    specAttrEq e.color p.color && specAttrEq (some e.simType) (some p.simType)

/-- Spec wording for the inclusion filter: every supplied keyword appears
case-insensitively in the flattened text of the result. -/
def everyKeywordAppears (keywords : List String) (p : JVal) : Bool :=
  keywords.all (fun kw => strContains (productText p) (pyLower (pyStrip kw)))

/-- Spec wording for the model-match guard: the tracked model appears
case-insensitively in the result's raw title or in the model extracted
from that title. -/
def specModelSeen (gm resTitle : String) : Bool :=
  strContains (pyLower resTitle) (pyLower gm) ||
    (match (extractComponents resTitle).model with
      | some fm => strContains (pyLower fm) (pyLower gm)
      | none => false)

/-! ### Supporting lemmas -/

theorem strTruthy_false_iff (s : String) : strTruthy s = false ↔ s = "" := by
  cases s with
  | mk data =>
      cases data <;> simp [strTruthy, String.ext_iff, List.isEmpty]

theorem pyLower_eq_empty_iff (s : String) : pyLower s = "" ↔ s = "" := by
  cases s with
  | mk data => simp [pyLower, lowerL, String.ext_iff]

theorem find?_congr {α : Type} (p q : α → Bool) (h : ∀ a, p a = q a) :
    ∀ l : List α, l.find? p = l.find? q := by
  intro l
  induction l with
  | nil => rfl
  | cons a l ih => simp [List.find?, h, ih]

theorem checkComp_eq_specAttrEq (a b : Option String) : checkComp a b = specAttrEq a b := by
  cases a with
  | none =>
      cases b with
      | none => rfl
      | some y => simp [checkComp, specAttrEq]
  | some x =>
      cases b with
      | none => simp [checkComp, specAttrEq]
      | some y =>
          by_cases hx : x = ""
          · by_cases hy : y = ""
            · subst hx; subst hy; rfl
            · have hty : strTruthy y = true := by
                cases h : strTruthy y
                · exact absurd ((strTruthy_false_iff y).mp h) hy
                · rfl
              have hly : ¬pyLower "" = pyLower y := by
                intro h
                exact hy ((pyLower_eq_empty_iff y).mp h.symm)
              simp [checkComp, specAttrEq, hx, strTruthy, hty, Ne.symm hy, hly]
          · by_cases hy : y = ""
            · have htx : strTruthy x = true := by
                cases h : strTruthy x
                · exact absurd ((strTruthy_false_iff x).mp h) hx
                · rfl
              have hlx : ¬pyLower x = pyLower "" := by
                intro h
                exact hx ((pyLower_eq_empty_iff x).mp h)
              simp [checkComp, specAttrEq, hy, htx, hx, strTruthy, hlx]
            · have htx : strTruthy x = true := by
                cases h : strTruthy x
                · exact absurd ((strTruthy_false_iff x).mp h) hx
                · rfl
              have hty : strTruthy y = true := by
                cases h : strTruthy y
                · exact absurd ((strTruthy_false_iff y).mp h) hy
                · rfl
              by_cases hl : pyLower x = pyLower y
              · simp [checkComp, specAttrEq, htx, hty, hl]
              · simp [checkComp, specAttrEq, htx, hty, hl]

theorem componentsMatch_eq_specAllFour (e p : Components) :
    componentsMatch e p = specAllFourMatch e p := by
  simp [componentsMatch, specAllFourMatch, checkComp_eq_specAttrEq]

/-! ### Claim theorems -/

/-- C4: price-update line matching returns the first candidate tracked
product, in the given order, whose extracted components equal the line's
extracted components case-insensitively in all four attributes, where
two unspecified values are equal and an unspecified value never equals a
specified one; with no such candidate the line is unmatched. -/
theorem c4_first_all_four_match (entryText : String) (products : List GlobalProduct) :
    findMatchingProduct entryText products =
      products.find? (fun p =>
        specAllFourMatch (extractComponents entryText) (extractComponents p.name)) := by
  unfold findMatchingProduct
  exact find?_congr _ _ (fun p => componentsMatch_eq_specAllFour _ _) products

/-- C3: the admin line with the Hong-Kong flag, dual connectivity phrase,
flagship model, 512GB and White parses to price 134000; its product text
extracts to model "17 Pro Max", storage "512GB", color "Silver" (the
white-to-silver remap fires on the flagship tier) and connectivity
"nano-SIM+Esim"; the handler's final price is
round(134000 * (1 - 0.085)) = 122610. -/
theorem c3_flagship_line_scenario :
    (∃ e : PriceEntry,
      parsePriceEntries "🇭🇰 Sim+eSim 17 Pro Max 512GB White — 134000₽" = [e] ∧
      e.price = 134000 ∧
      extractComponents e.productText =
        ⟨some "17 Pro Max", some "512GB", some "Silver", "nano-SIM+Esim"⟩) ∧
    finalPrice 134000 = 122610 := by
  constructor
  · refine ⟨⟨"🇭🇰 Sim+eSim 17 Pro Max 512GB White — 134000₽",
      "Sim+eSim 17 Pro Max 512GB White",
      "nano-SIM+Esim 17 Pro Max 512GB White", 134000⟩, ?_, ?_, ?_⟩
    · decide
    · rfl
    · decide
  · have h : (((134000 : ℕ) : ℚ) * (1 - 85 / 1000)) = ((122610 : ℤ) : ℚ) := by norm_num
    rw [finalPrice, h, round_intCast]

/-- C5 evidence: the admin line "17 Air 256GB Black — 100000₽" does get
its connectivity forced to "Esim" while parsing (the model contains
"air"), but the matcher re-extracts components from the line's product
text — obtaining the dual-connectivity default — and therefore fails to
match a tracked product that agrees with the line in model, storage and
color and carries the embedded-only connectivity. -/
theorem c5_air_forced_esim_ignored_in_matching :
    ∃ e : PriceEntry,
      parsePriceEntries "17 Air 256GB Black — 100000₽" = [e] ∧
      e.simType = "Esim" ∧
      extractComponents e.productText =
        ⟨some "17 Air", some "256GB", some "Black", "nano-SIM+Esim"⟩ ∧
      extractComponents "eSim 17 Air 256GB Black" =
        ⟨some "17 Air", some "256GB", some "Black", "Esim"⟩ ∧
      findMatchingProduct e.productText
        [⟨"eSim 17 Air 256GB Black", 0, 0, "[]", "[]"⟩] = none := by
  refine ⟨⟨"17 Air 256GB Black — 100000₽", "17 Air 256GB Black", "Esim", 100000⟩,
    ?_, rfl, ?_, ?_, ?_⟩
  · decide
  · decide
  · decide
  · decide

/-- The inner loop of `_filter_by_keywords` accepts exactly when some
supplied keyword is non-blank after trimming and occurs in the text. -/
theorem keywordLoop_iff (text : String) (kws : List String) :
    keywordLoop text kws = true ↔
      ∃ kw ∈ kws, pyLower (pyStrip kw) ≠ "" ∧
        strContains text (pyLower (pyStrip kw)) = true := by
  induction kws with
  | nil => simp [keywordLoop]
  | cons kw rest ih =>
      by_cases hk : (pyLower (pyStrip kw)).data.isEmpty
      · have hk' : pyLower (pyStrip kw) = "" := by
          cases h : pyLower (pyStrip kw) with
          | mk data =>
              rw [h] at hk
              cases data with
              | nil => rfl
              | cons c cs => simp [List.isEmpty] at hk
        simp only [keywordLoop, hk, if_true]
        rw [ih]
        constructor
        · rintro ⟨w, hw, hne, hc⟩
          exact ⟨w, List.mem_cons_of_mem _ hw, hne, hc⟩
        · rintro ⟨w, hw, hne, hc⟩
          rcases List.mem_cons.mp hw with h | h
          · subst h; exact absurd hk' hne
          · exact ⟨w, h, hne, hc⟩
      · have hk' : pyLower (pyStrip kw) ≠ "" := by
          intro h
          rw [h] at hk
          simp [List.isEmpty] at hk
        by_cases hc : strContains text (pyLower (pyStrip kw)) = true
        · simp only [keywordLoop, hk, if_false, Bool.false_eq_true, hc, if_true]
          constructor
          · intro _
            exact ⟨kw, List.mem_cons_self kw rest, hk', hc⟩
          · intro _; trivial
        · simp only [keywordLoop, hk, Bool.false_eq_true, if_false, hc]
          rw [ih]
          constructor
          · rintro ⟨w, hw, hne, hcc⟩
            exact ⟨w, List.mem_cons_of_mem _ hw, hne, hcc⟩
          · rintro ⟨w, hw, hne, hcc⟩
            rcases List.mem_cons.mp hw with h | h
            · subst h; exact absurd hcc hc
            · exact ⟨w, h, hne, hcc⟩

/-- C2 counterexample: with keywords ["foo", "bar"], a result whose only
textual field is "foo" is kept by the code although the keyword "bar"
does not appear in its flattened text — the claimed
"keep iff every keyword appears" fails. -/
theorem c2_counterexample_any_not_all :
    filterByKeywords [JVal.obj [("name", JVal.str "foo")]] ["foo", "bar"] =
      [JVal.obj [("name", JVal.str "foo")]] ∧
    everyKeywordAppears ["foo", "bar"] (JVal.obj [("name", JVal.str "foo")]) = false := by
  constructor
  · rfl
  · rfl

/-- C2 amended: with no keywords every result is kept; with keywords, a
result is kept iff at least one supplied keyword, non-blank after
trimming, appears case-insensitively in the flattened concatenation of
the result's textual fields (depth-bounded recursion). -/
theorem c2_amended_some_keyword (ps : List JVal) (kws : List String) :
    filterByKeywords ps [] = ps ∧
    (kws ≠ [] → ∀ p, p ∈ filterByKeywords ps kws ↔
      p ∈ ps ∧ ∃ kw ∈ kws, pyLower (pyStrip kw) ≠ "" ∧
        strContains (productText p) (pyLower (pyStrip kw)) = true) := by
  constructor
  · rfl
  · intro hne p
    have hne' : kws.isEmpty = false := by
      cases kws with
      | nil => exact absurd rfl hne
      | cons a l => rfl
    rw [filterByKeywords, hne']
    simp only [Bool.false_eq_true, if_false, List.mem_filter]
    rw [keywordLoop_iff]

/-- Witness for `c2_amended_some_keyword` at concrete inputs. -/
theorem c2_amended_some_keyword_witness :
    (["foo"] ≠ ([] : List String)) ∧
    (JVal.obj [("name", JVal.str "foo")] ∈
        filterByKeywords [JVal.obj [("name", JVal.str "foo")]] ["foo"] ↔
      JVal.obj [("name", JVal.str "foo")] ∈ [JVal.obj [("name", JVal.str "foo")]] ∧
        ∃ kw ∈ ["foo"], pyLower (pyStrip kw) ≠ "" ∧
          strContains (productText (JVal.obj [("name", JVal.str "foo")]))
            (pyLower (pyStrip kw)) = true) := by
  have h := (c2_amended_some_keyword [JVal.obj [("name", JVal.str "foo")]] ["foo"]).2
    (by simp) (JVal.obj [("name", JVal.str "foo")])
  exact ⟨by simp, h⟩

/-- C9: when the exclusion term mentions the embedded SIM and the
field's normalized text triggers `should_skip_esim_case` (embedded and
physical markers co-occur, no confirmed embedded-only phrasing),
exclusion matching is suppressed for that field; in particular the
term "esim" does not exclude a result whose name reads
"nano-sim + esim dual connectivity". -/
theorem c9_dual_sim_not_excluded :
    (∀ (ex txt : String) (path : FieldPath),
      strContains (normalizeKeepConnectors (pyLower (pyStrip ex))) "esim" = true →
      shouldSkipEsimCase (joinSpace (splitWsStr (normalizeKeepConnectors txt))) = true →
      fragMatchesExclusion (splitWsStr (normalizeKeepConnectors (pyLower (pyStrip ex))))
        (compactStr (normalizeKeepConnectors (pyLower (pyStrip ex))))
        (normalizeKeepConnectors (pyLower (pyStrip ex))) path txt = false) ∧
    filterByExclusions
        [JVal.obj [("name", JVal.str "nano-sim + esim dual connectivity")]] ["esim"] =
      [JVal.obj [("name", JVal.str "nano-sim + esim dual connectivity")]] := by
  constructor
  · intro ex txt path h1 h2
    by_cases hp : isCharValueZero path = true
    · simp [fragMatchesExclusion, hp]
    · simp [fragMatchesExclusion, hp, h1, h2]
  · rfl

/-- Witness for the first part of `c9_dual_sim_not_excluded`. -/
theorem c9_dual_sim_not_excluded_witness :
    fragMatchesExclusion
        (splitWsStr (normalizeKeepConnectors (pyLower (pyStrip "esim"))))
        (compactStr (normalizeKeepConnectors (pyLower (pyStrip "esim"))))
        (normalizeKeepConnectors (pyLower (pyStrip "esim")))
        FieldPath.productName "nano-sim + esim dual connectivity" = false :=
  c9_dual_sim_not_excluded.1 "esim" "nano-sim + esim dual connectivity"
    FieldPath.productName (by decide) (by decide)

/-- The engine model `_search_by_query` can only return a value or run out of trace;
no branch lets an exception escape. -/
theorem searchByQuery_ne_raised :
    ∀ (trace : List HttpOutcome) (attempts : Nat),
      searchByQuery trace attempts ≠ RunResult.raised := by
  intro trace attempts
  induction trace, attempts using searchByQuery.induct
  all_goals simp_all [searchByQuery]
  all_goals try split
  all_goals first
    | simp_all
    | omega

/-- C6: the search operation is total — for every outcome trace it never
propagates an exception, and each failure branch (unknown status,
exhausted timeout retries, non-JSON body, internal exception, empty
body, failed 498 retry) yields the empty result list. -/
theorem c6_search_product_total (trace : List HttpOutcome)
    (kws excl : List String) (code : Nat) :
    (∀ attempts, searchByQuery trace attempts ≠ RunResult.raised) ∧
    searchProduct trace kws excl ≠ RunResult.raised ∧
    searchProduct [.other code] kws excl = .ok [] ∧
    searchProduct [.timeout, .timeout, .timeout] kws excl = .ok [] ∧
    searchProduct [.badJsonOther] kws excl = .ok [] ∧
    searchProduct [.exn] kws excl = .ok [] ∧
    searchProduct [.emptyBody] kws excl = .ok [] ∧
    searchProduct [.s498, .other code] kws excl = .ok [] := by
  refine ⟨searchByQuery_ne_raised trace, ?_, rfl, rfl, rfl, rfl, rfl, ?_⟩
  · unfold searchProduct
    split
    · split <;> simp
    · simp
    · simp
  · rfl

/-! ### Lemmas for the model-match guard (C8) -/

theorem strContains_empty_needle (s : String) : strContains s "" = true := by
  cases s with
  | mk data => cases data <;> simp [strContains, subsL, startsCS, List.isEmpty]

theorem strTruthy_true_iff (s : String) : strTruthy s = true ↔ s ≠ "" := by
  constructor
  · intro h he
    rw [(strTruthy_false_iff s).mpr he] at h
    exact Bool.false_ne_true h
  · intro h
    cases hb : strTruthy s
    · exact absurd ((strTruthy_false_iff s).mp hb) h
    · rfl

/-- C8: for every (result, band) pair, when the tracked product's stored
name extracts to a model, the guard passes exactly when that model
appears case-insensitively in the result's raw title or in the model
extracted from the title; a failing guard skips the pair with no
notification and no ledger change. -/
theorem c8_model_match_guard :
    (∀ (prodName resTitle gm : String),
      (extractComponents prodName).model = some gm →
      (modelGuard prodName resTitle = true ↔ specModelSeen gm resTitle = true)) ∧
    (∀ (led : List LedgerEntry) (prodName : String) (thrMin thrMax : ℚ)
        (resTitle url : String) (price : ℚ),
      modelGuard prodName resTitle = false →
      processPair led prodName thrMin thrMax resTitle url price = (led, false)) := by
  constructor
  · intro prodName resTitle gm h
    simp only [modelGuard, h]
    by_cases hgm : strTruthy gm = true
    · rw [if_neg (by simp [hgm])]
      unfold specModelSeen
      cases hf : (extractComponents resTitle).model with
      | none => simp
      | some fm =>
          by_cases hfm : strTruthy fm = true
          · simp [hfm]
          · have hfe : fm = "" := (strTruthy_false_iff fm).mp (by
              cases hb : strTruthy fm
              · rfl
              · exact absurd hb hfm)
            have hge : gm ≠ "" := (strTruthy_true_iff gm).mp hgm
            have : strContains "" (pyLower gm) = false := by
              have : (pyLower gm).data ≠ [] := by
                intro hd
                exact hge ((pyLower_eq_empty_iff gm).mp (String.ext hd))
              cases hd : (pyLower gm).data with
              | nil => exact absurd hd this
              | cons c cs => simp [strContains, subsL, hd, List.isEmpty]
            have hpe : pyLower "" = "" := rfl
            simp [hfm, hfe, this, hpe]
    · have hge : gm = "" := (strTruthy_false_iff gm).mp (by
        cases hb : strTruthy gm
        · rfl
        · exact absurd hb hgm)
      rw [if_pos (by simp [hgm])]
      subst hge
      have : pyLower "" = "" := rfl
      simp [specModelSeen, this, strContains_empty_needle]
  · intro led prodName thrMin thrMax resTitle url price h
    simp [processPair, h]

/-- Witness for `c8_model_match_guard` at concrete inputs. -/
theorem c8_model_match_guard_witness :
    ((extractComponents "17 Pro 256GB").model = some "17 Pro") ∧
    (modelGuard "17 Pro 256GB" "Sim+eSim 17 Pro Max 512GB Blue" = true ↔
      specModelSeen "17 Pro" "Sim+eSim 17 Pro Max 512GB Blue" = true) ∧
    (modelGuard "17 Pro Max 1TB" "17 Air 256GB Black" = false) ∧
    (processPair [] "17 Pro Max 1TB" 0 100000 "17 Air 256GB Black" "u" 50000 =
      ([], false)) := by
  refine ⟨by decide, ?_, by decide, ?_⟩
  · exact c8_model_match_guard.1 "17 Pro 256GB" "Sim+eSim 17 Pro Max 512GB Blue"
      "17 Pro" (by decide)
  · exact c8_model_match_guard.2 [] "17 Pro Max 1TB" 0 100000 "17 Air 256GB Black"
      "u" 50000 (by decide)

/-- C7: when a refresh without force performs exactly one underlying
acquisition (the primary strategy succeeded and cached the session at
time t1), a second refresh without force at any time t2 with
t2 - t1 within the TTL invokes no acquisition strategy at all and
leaves the state unchanged: the two calls together perform one
acquisition. -/
theorem c7_refresh_idempotent (st st1 : CMState) (env env2 : AcqEnv) (t1 t2 : ℚ)
    (h1 : updateCookies st env t1 false = (st1, 1))
    (h2 : t2 - t1 ≤ updateInterval) :
    updateCookies st1 env2 t2 false = (st1, 0) ∧
    (updateCookies st env t1 false).2 + (updateCookies st1 env2 t2 false).2 = 1 := by
  have hbranch : ∃ cs, env.selenium = some cs ∧ 2 ≤ cs.length ∧
      st1 = ⟨some cs, t1, false⟩ := by
    unfold updateCookies at h1
    split at h1
    · exact absurd (congrArg Prod.snd h1) (by simp)
    · split at h1
      · exact absurd (congrArg Prod.snd h1) (by simp)
      · split at h1
        · rename_i cs heq
          split at h1
          · exact ⟨cs, heq, by assumption, (Prod.mk.injEq _ _ _ _ ▸ h1).1.symm⟩
          · split at h1
            · exact absurd (congrArg Prod.snd h1) (by simp)
            · exact absurd (congrArg Prod.snd h1) (by simp)
        · split at h1
          · exact absurd (congrArg Prod.snd h1) (by simp)
          · exact absurd (congrArg Prod.snd h1) (by simp)
  obtain ⟨cs, hsel, hlen, hst1⟩ := hbranch
  have hne : cs.isEmpty = false := by
    cases cs with
    | nil => simp at hlen
    | cons a l => rfl
  have hsecond : updateCookies st1 env2 t2 false = (st1, 0) := by
    subst hst1
    unfold updateCookies
    rw [if_neg (by simp)]
    rw [if_pos ?_]
    simp only [cookiesTruthy, shouldUpdateCookies, hne]
    have : ¬(t2 - t1 > updateInterval) := not_lt.mpr h2
    simp [this]
  refine ⟨hsecond, ?_⟩
  rw [h1, hsecond]
  rfl

/-- Witness for `c7_refresh_idempotent` at concrete inputs. -/
theorem c7_refresh_idempotent_witness :
    updateCookies ⟨none, 0, false⟩ ⟨some [("a", "1"), ("b", "2")], []⟩ 0 false =
      (⟨some [("a", "1"), ("b", "2")], 0, false⟩, 1) ∧
    ((0 : ℚ) + 60 - 0 ≤ updateInterval) ∧
    updateCookies ⟨some [("a", "1"), ("b", "2")], 0, false⟩
        ⟨some [("c", "3"), ("d", "4")], []⟩ (0 + 60) false =
      (⟨some [("a", "1"), ("b", "2")], 0, false⟩, 0) := by
  have h1 : updateCookies ⟨none, 0, false⟩ ⟨some [("a", "1"), ("b", "2")], []⟩ 0 false =
      (⟨some [("a", "1"), ("b", "2")], 0, false⟩, 1) := by
    unfold updateCookies
    norm_num [cookiesTruthy, shouldUpdateCookies]
  have h2 : ((0 : ℚ) + 60 - 0 ≤ updateInterval) := by norm_num [updateInterval]
  exact ⟨h1, h2, (c7_refresh_idempotent _ _ _ ⟨some [("c", "3"), ("d", "4")], []⟩
    0 (0 + 60) h1 h2).1⟩

/-! ### Lemmas for the global-product upsert (C10) -/

theorem addGlobalProduct_names_of_mem (rows : List GlobalProduct) (c : AddCall)
    (h : c.name ∈ rows.map GlobalProduct.name) :
    (addGlobalProduct rows c).map GlobalProduct.name = rows.map GlobalProduct.name := by
  induction rows with
  | nil => simp at h
  | cons r rest ih =>
      by_cases hr : r.name == c.name
      · simp [addGlobalProduct, hr]
      · have h' : c.name ∈ rest.map GlobalProduct.name := by
          rcases List.mem_cons.mp h with he | hm
          · exact absurd (by simp [he.symm] : r.name == c.name) (by simp_all)
          · exact hm
        simp [addGlobalProduct, hr, ih h']

theorem addGlobalProduct_names_of_not_mem (rows : List GlobalProduct) (c : AddCall)
    (h : c.name ∉ rows.map GlobalProduct.name) :
    (addGlobalProduct rows c).map GlobalProduct.name =
      rows.map GlobalProduct.name ++ [c.name] := by
  induction rows with
  | nil => rfl
  | cons r rest ih =>
      have hr : ¬(r.name == c.name) := by
        intro hb
        exact h (by simp [List.mem_cons, (eq_of_beq hb).symm])
      have h' : c.name ∉ rest.map GlobalProduct.name := by
        intro hm
        exact h (List.mem_cons_of_mem _ hm)
      simp [addGlobalProduct, hr, ih h']

theorem addGlobalProduct_names_nodup (rows : List GlobalProduct) (c : AddCall)
    (h : (rows.map GlobalProduct.name).Nodup) :
    ((addGlobalProduct rows c).map GlobalProduct.name).Nodup := by
  by_cases hm : c.name ∈ rows.map GlobalProduct.name
  · rw [addGlobalProduct_names_of_mem rows c hm]
    exact h
  · rw [addGlobalProduct_names_of_not_mem rows c hm]
    simp [List.nodup_append, h, hm]

theorem applyAddCalls_names_nodup (calls : List AddCall) (rows : List GlobalProduct)
    (h : (rows.map GlobalProduct.name).Nodup) :
    ((applyAddCalls rows calls).map GlobalProduct.name).Nodup := by
  induction calls generalizing rows with
  | nil => exact h
  | cons c cs ih => exact ih (addGlobalProduct rows c) (addGlobalProduct_names_nodup rows c h)

theorem filter_name_length_le_one (l : List GlobalProduct) (n : String)
    (h : (l.map GlobalProduct.name).Nodup) :
    (l.filter (fun r => r.name == n)).length ≤ 1 := by
  induction l with
  | nil => simp
  | cons r rest ih =>
      have hnotin : r.name ∉ rest.map GlobalProduct.name := (List.nodup_cons.mp h).1
      have hrest : (rest.map GlobalProduct.name).Nodup := (List.nodup_cons.mp h).2
      by_cases hr : r.name == n
      · have hn : r.name = n := eq_of_beq hr
        have hempty : rest.filter (fun r => r.name == n) = [] := by
          rw [List.filter_eq_nil_iff]
          intro x hx hbx
          exact hnotin (hn ▸ (eq_of_beq hbx) ▸ List.mem_map_of_mem GlobalProduct.name hx)
        simp [List.filter_cons, hr, hempty]
      · simp only [List.filter_cons, hr, Bool.false_eq_true, if_false]
        exact ih hrest

/-- C10: `add_global_product` is an upsert keyed on the exact name — an
existing row with the name is overwritten in place (same row names, same
table size) — so any sequence of add calls from a table with unique
names keeps names unique, and at most one row per name ever exists. -/
theorem c10_add_global_product_upsert :
    (∀ (rows : List GlobalProduct) (c : AddCall),
      (∃ r ∈ rows, r.name = c.name) →
      (addGlobalProduct rows c).map GlobalProduct.name = rows.map GlobalProduct.name ∧
      (addGlobalProduct rows c).length = rows.length) ∧
    (∀ (rows : List GlobalProduct) (calls : List AddCall),
      (rows.map GlobalProduct.name).Nodup →
      ((applyAddCalls rows calls).map GlobalProduct.name).Nodup ∧
      ∀ n, ((applyAddCalls rows calls).filter (fun r => r.name == n)).length ≤ 1) := by
  constructor
  · intro rows c hex
    have hm : c.name ∈ rows.map GlobalProduct.name := by
      obtain ⟨r, hr, he⟩ := hex
      exact he ▸ List.mem_map_of_mem GlobalProduct.name hr
    have hnames := addGlobalProduct_names_of_mem rows c hm
    refine ⟨hnames, ?_⟩
    have := congrArg List.length hnames
    simpa using this
  · intro rows calls h
    refine ⟨applyAddCalls_names_nodup calls rows h, fun n => ?_⟩
    exact filter_name_length_le_one _ n (applyAddCalls_names_nodup calls rows h)

/-- Witness for `c10_add_global_product_upsert` at concrete inputs. -/
theorem c10_add_global_product_upsert_witness :
    ((addGlobalProduct [⟨"a", 0, 0, "[]", "[]"⟩] ⟨"a", 1, none, "[]", "[]"⟩).map
        GlobalProduct.name = [⟨"a", 0, 0, "[]", "[]"⟩].map GlobalProduct.name ∧
      (addGlobalProduct [⟨"a", 0, 0, "[]", "[]"⟩] ⟨"a", 1, none, "[]", "[]"⟩).length =
        [(⟨"a", 0, 0, "[]", "[]"⟩ : GlobalProduct)].length) ∧
    (((applyAddCalls [⟨"a", 0, 0, "[]", "[]"⟩]
          [⟨"a", 1, none, "[]", "[]"⟩, ⟨"b", 2, some 3, "[]", "[]"⟩]).map
        GlobalProduct.name).Nodup ∧
      ∀ n, ((applyAddCalls [⟨"a", 0, 0, "[]", "[]"⟩]
          [⟨"a", 1, none, "[]", "[]"⟩, ⟨"b", 2, some 3, "[]", "[]"⟩]).filter
            (fun r => r.name == n)).length ≤ 1) := by
  constructor
  · exact c10_add_global_product_upsert.1 [⟨"a", 0, 0, "[]", "[]"⟩]
      ⟨"a", 1, none, "[]", "[]"⟩ ⟨⟨"a", 0, 0, "[]", "[]"⟩, by simp, rfl⟩
  · exact c10_add_global_product_upsert.2 [⟨"a", 0, 0, "[]", "[]"⟩]
      [⟨"a", 1, none, "[]", "[]"⟩, ⟨"b", 2, some 3, "[]", "[]"⟩] (by simp)

/-! ### Lemmas for the notification ledger (C1) -/

theorem lookup_upsert_self (led : List LedgerEntry) (u : String) (p : ℚ) :
    lookupLedger (upsertNotification led u p) u = some ⟨u, some p⟩ := by
  induction led with
  | nil => simp [upsertNotification, lookupLedger, List.find?]
  | cons e rest ih =>
      by_cases he : e.url == u
      · have : e.url = u := eq_of_beq he
        simp [upsertNotification, he, lookupLedger, List.find?, this]
      · simp only [upsertNotification, he, Bool.false_eq_true, if_false]
        simpa [lookupLedger, List.find?, he] using ih

theorem lookup_upsert_other (led : List LedgerEntry) (u v : String) (p : ℚ)
    (h : ¬(u == v)) :
    lookupLedger (upsertNotification led u p) v = lookupLedger led v := by
  induction led with
  | nil => simp [upsertNotification, lookupLedger, List.find?, h]
  | cons e rest ih =>
      by_cases he : e.url == u
      · have heu : e.url = u := eq_of_beq he
        have hev : ¬(e.url == v) := by
          rw [heu]; exact h
        simp [upsertNotification, he, lookupLedger, List.find?, hev]
      · by_cases hev : e.url == v
        · simp [upsertNotification, he, lookupLedger, List.find?, hev]
        · simp only [upsertNotification, he, Bool.false_eq_true, if_false]
          simpa [lookupLedger, List.find?, hev] using ih

/-- Once the ledger holds a known price for the target URL, every later
dispatched price stays strictly below it and the dispatched prices form
a strictly decreasing chain. -/
theorem runDispatches_bounded (evs : List (String × ℚ)) :
    ∀ (led : List LedgerEntry) (target : String) (e : LedgerEntry) (prev : ℚ),
      lookupLedger led target = some e → e.lastPrice = some prev →
      (∀ q ∈ runDispatches led evs target, q < prev) ∧
      List.Chain' (· > ·) (runDispatches led evs target) := by
  induction evs with
  | nil => intro led target e prev _ _; simp [runDispatches]
  | cons ev evs ih =>
      intro led target e prev hl hp
      obtain ⟨u, p⟩ := ev
      by_cases hu : u == target
      · have hut : u = target := eq_of_beq hu
        subst hut
        have hdec : notifyDecision led u p = decide (p < prev) := by
          simp [notifyDecision, hl, hp]
        by_cases hlt : p < prev
        · have hstep : notifyStep led u p = (upsertNotification led u p, true) := by
            simp [notifyStep, hdec, hlt]
          have hib := ih (upsertNotification led u p) u ⟨u, some p⟩ p
            (lookup_upsert_self led u p) rfl
          have hlist : runDispatches led ((u, p) :: evs) u =
              p :: runDispatches (upsertNotification led u p) evs u := by
            simp [runDispatches, hstep]
          rw [hlist]
          constructor
          · intro q hq
            rcases List.mem_cons.mp hq with h | h
            · exact h ▸ hlt
            · exact lt_trans (hib.1 q h) hlt
          · rw [List.chain'_cons']
            refine ⟨?_, hib.2⟩
            intro b hb
            exact hib.1 b (List.mem_of_mem_head? hb)
        · have hstep : notifyStep led u p = (led, false) := by
            simp [notifyStep, hdec, hlt]
          have hlist : runDispatches led ((u, p) :: evs) u =
              runDispatches led evs u := by
            simp [runDispatches, hstep]
          rw [hlist]
          exact ih led u e prev hl hp
      · have hstate : lookupLedger (notifyStep led u p).1 target =
            lookupLedger led target := by
          by_cases hd : notifyDecision led u p
          · simp only [notifyStep, hd, if_true]
            exact lookup_upsert_other led u target p hu
          · simp [notifyStep, hd]
        have hlist : runDispatches led ((u, p) :: evs) target =
            runDispatches (notifyStep led u p).1 evs target := by
          simp [runDispatches, hu]
        rw [hlist]
        exact ih (notifyStep led u p).1 target e prev (hstate ▸ hl) hp

theorem runDispatches_chain (evs : List (String × ℚ)) :
    ∀ (led : List LedgerEntry) (target : String),
      List.Chain' (· > ·) (runDispatches led evs target) := by
  induction evs with
  | nil => intro led target; simp [runDispatches]
  | cons ev evs ih =>
      intro led target
      obtain ⟨u, p⟩ := ev
      by_cases hu : u == target
      · have hut : u = target := eq_of_beq hu
        subst hut
        by_cases hd : notifyDecision led u p
        · have hstep : notifyStep led u p = (upsertNotification led u p, true) := by
            simp [notifyStep, hd]
          have hb := runDispatches_bounded evs (upsertNotification led u p) u
            ⟨u, some p⟩ p (lookup_upsert_self led u p) rfl
          have hlist : runDispatches led ((u, p) :: evs) u =
              p :: runDispatches (upsertNotification led u p) evs u := by
            simp [runDispatches, hstep]
          rw [hlist, List.chain'_cons']
          refine ⟨?_, hb.2⟩
          intro b hb'
          exact hb.1 b (List.mem_of_mem_head? hb')
        · have hstep : notifyStep led u p = (led, false) := by
            simp [notifyStep, hd]
          have hlist : runDispatches led ((u, p) :: evs) u =
              runDispatches led evs u := by
            simp [runDispatches, hstep]
          rw [hlist]
          exact ih led u
      · have hlist : runDispatches led ((u, p) :: evs) target =
            runDispatches (notifyStep led u p).1 evs target := by
          simp [runDispatches, hu]
        rw [hlist]
        exact ih (notifyStep led u p).1 target

/-- C1: for a fixed marketplace URL, the loop dispatches exactly when
the ledger has no entry for the URL, or an entry with unknown previous
price, or an entry whose known price strictly exceeds the current
discounted price; an equal-or-higher price never dispatches and leaves
the ledger unchanged; a dispatch records the dispatched price under the
URL; and over any run the dispatched prices for a URL strictly
decrease. -/
theorem c1_notification_decision_monotonic :
    (∀ (led : List LedgerEntry) (u : String) (p : ℚ),
      (notifyStep led u p).2 = true ↔
        (lookupLedger led u = none ∨
          ∃ e, lookupLedger led u = some e ∧
            (e.lastPrice = none ∨ ∃ prev, e.lastPrice = some prev ∧ p < prev))) ∧
    (∀ (led : List LedgerEntry) (u : String) (p : ℚ) (e : LedgerEntry) (prev : ℚ),
      lookupLedger led u = some e → e.lastPrice = some prev → prev ≤ p →
      notifyStep led u p = (led, false)) ∧
    (∀ (led : List LedgerEntry) (u : String) (p : ℚ),
      (notifyStep led u p).2 = true →
      lookupLedger (notifyStep led u p).1 u = some ⟨u, some p⟩) ∧
    (∀ (led : List LedgerEntry) (evs : List (String × ℚ)) (target : String),
      List.Chain' (· > ·) (runDispatches led evs target)) := by
  refine ⟨?_, ?_, ?_, fun led evs target => runDispatches_chain evs led target⟩
  · intro led u p
    have hsnd : (notifyStep led u p).2 = notifyDecision led u p := by
      by_cases hd : notifyDecision led u p <;> simp [notifyStep, hd]
    rw [hsnd]
    cases hl : lookupLedger led u with
    | none => simp [notifyDecision, hl]
    | some e =>
        cases hp : e.lastPrice with
        | none =>
            simp only [notifyDecision, hl, hp]
            constructor
            · intro _
              exact Or.inr ⟨e, rfl, Or.inl hp⟩
            · intro _; trivial
        | some prev =>
            simp only [notifyDecision, hl, hp, decide_eq_true_eq]
            constructor
            · intro hlt
              exact Or.inr ⟨e, rfl, Or.inr ⟨prev, hp, hlt⟩⟩
            · rintro (h | ⟨e', he', hrest⟩)
              · exact absurd h (by simp)
              · have : e' = e := by
                  injection he' with h'
                  exact h'.symm
                subst this
                rcases hrest with h | ⟨prev', hp', hlt⟩
                · rw [hp] at h; exact absurd h (by simp)
                · rw [hp] at hp'
                  injection hp' with h'
                  exact h' ▸ hlt
  · intro led u p e prev hl hp hge
    have hdec : notifyDecision led u p = false := by
      simp [notifyDecision, hl, hp, not_lt.mpr hge]
    simp [notifyStep, hdec]
  · intro led u p hdisp
    have hd : notifyDecision led u p = true := by
      by_cases hd : notifyDecision led u p
      · exact hd
      · simp [notifyStep, hd] at hdisp
    simp only [notifyStep, hd, if_true]
    exact lookup_upsert_self led u p

/-- Witness for `c1_notification_decision_monotonic` at concrete inputs. -/
theorem c1_notification_decision_monotonic_witness :
    ((notifyStep [⟨"u", some 5⟩] "u" 5).2 = true ↔
      (lookupLedger [⟨"u", some 5⟩] "u" = none ∨
        ∃ e, lookupLedger [⟨"u", some 5⟩] "u" = some e ∧
          (e.lastPrice = none ∨ ∃ prev, e.lastPrice = some prev ∧ (5 : ℚ) < prev))) ∧
    notifyStep [⟨"u", some 5⟩] "u" 5 = ([⟨"u", some 5⟩], false) := by
  constructor
  · exact c1_notification_decision_monotonic.1 [⟨"u", some 5⟩] "u" 5
  · exact c1_notification_decision_monotonic.2.1 [⟨"u", some 5⟩] "u" 5 ⟨"u", some 5⟩ 5
      (by simp [lookupLedger, List.find?]) rfl le_rfl

end WB
